import Mathlib

/-!
Verification of the Minesweeper knowledge-based agent (src/minesweeper.py).

The embedding below translates the agent classes `Sentence` and `MinesweeperAI`
into Lean.  Python sets of `(row, col)` pairs become `Finset (Int × Int)`;
Python ints become `Int`; the knowledge base (a Python list) becomes
`List Sentence`.

The mutually recursive pair `mark_cells` / `infer_knowledge` is embedded as a
small-step machine: a configuration `Cfg` records which Python statement is
about to execute, `step` performs one loop iteration (or one phase change), and
`run fuel` iterates `step`.  This is necessary because the Python loops in
`infer_knowledge` iterate over `self.knowledge` *while appending to it* (a
Python `for` over a list sees elements appended during iteration), so the
loops are modelled index-by-index exactly as CPython executes them, and they
are not total: `run` reports non-termination by never reaching `Cfg.done`.
-/

namespace Minesweeper2P

/-- A board cell `(row, column)`; Python tuples of ints. -/
abbrev Cell := Int × Int

/-- `Sentence`: a set of board cells and a count of how many of them are
mines.  Equality is by value (`__eq__` compares `cells` and `count`). -/
structure Sentence where
  cells : Finset Cell
  count : Int

instance : DecidableEq Sentence := fun a b =>
  decidable_of_iff (a.cells = b.cells ∧ a.count = b.count) (by
    cases a; cases b; rw [Sentence.mk.injEq])

/-- `Sentence.known_mines`: returns the cell set when `len(self.cells) ==
self.count`, otherwise Python implicitly returns `None`. -/
def Sentence.known_mines (s : Sentence) : Option (Finset Cell) :=
  if (s.cells.card : Int) = s.count then some s.cells else none

/-- `Sentence.known_safes`: returns the cell set when `self.count == 0`,
otherwise `None`. -/
def Sentence.known_safes (s : Sentence) : Option (Finset Cell) :=
  if s.count = 0 then some s.cells else none

/-- `Sentence.mark_mine`: if the cell is in the sentence, remove it and
decrement the count; otherwise no-op. -/
def Sentence.mark_mine (s : Sentence) (c : Cell) : Sentence :=
  if c ∈ s.cells then ⟨s.cells.erase c, s.count - 1⟩ else s

/-- `Sentence.mark_safe`: if the cell is in the sentence, remove it; the
count is unchanged; otherwise no-op. -/
def Sentence.mark_safe (s : Sentence) (c : Cell) : Sentence :=
  if c ∈ s.cells then ⟨s.cells.erase c, s.count⟩ else s

/-- The state of a `MinesweeperAI` instance. -/
structure AIState where
  height : Int
  width : Int
  moves_made : Finset Cell
  mines : Finset Cell
  safes : Finset Cell
  knowledge : List Sentence

instance : DecidableEq AIState := fun a b =>
  decidable_of_iff (a.height = b.height ∧ a.width = b.width ∧
      a.moves_made = b.moves_made ∧ a.mines = b.mines ∧ a.safes = b.safes ∧
      a.knowledge = b.knowledge) (by
    cases a; cases b; rw [AIState.mk.injEq])

/-- `MinesweeperAI.__init__(height, width)`. -/
def AIState.initial (h w : Int) : AIState :=
  ⟨h, w, ∅, ∅, ∅, []⟩

/-- `MinesweeperAI.mark_mine`: add the cell to the global `mines` set and
broadcast `Sentence.mark_mine` to every sentence in the knowledge base. -/
def AIState.mark_mine (st : AIState) (c : Cell) : AIState :=
  { st with mines := insert c st.mines
          , knowledge := st.knowledge.map (fun s => s.mark_mine c) }

/-- `MinesweeperAI.mark_safe`: add the cell to the global `safes` set and
broadcast `Sentence.mark_safe` to every sentence in the knowledge base. -/
def AIState.mark_safe (st : AIState) (c : Cell) : AIState :=
  { st with safes := insert c st.safes
          , knowledge := st.knowledge.map (fun s => s.mark_safe c) }

/-- The vacuous sentence `{} = 0`; also used as the (never observable)
fallback value of list indexing. -/
def vacuous : Sentence := ⟨∅, 0⟩

/-- Row-major order on cells, used to enumerate the elements of a cell set.
Python iterates a `frozenset` in an unspecified order; since marking a batch
of cells is order independent, any fixed enumeration order is faithful. -/
def cellLE (a b : Cell) : Prop := a.1 < b.1 ∨ (a.1 = b.1 ∧ a.2 ≤ b.2)

instance : DecidableRel cellLE := fun a b => by
  unfold cellLE; infer_instance

instance : IsTrans Cell cellLE :=
  ⟨by intro a b c hab hbc; rcases hab with h | ⟨h1, h2⟩ <;> rcases hbc with h' | ⟨h1', h2'⟩ <;>
      [left; left; left; right] <;> omega⟩

instance : IsAntisymm Cell cellLE :=
  ⟨by intro a b hab hba
      rcases hab with h | ⟨h1, h2⟩ <;> rcases hba with h' | ⟨h1', h2'⟩ <;>
        exact Prod.ext (by omega) (by omega)⟩

instance : IsTotal Cell cellLE := ⟨by
  intro a b
  by_cases h : cellLE a b
  · exact Or.inl h
  · unfold cellLE at h ⊢; right; omega⟩

/-- Enumerate a finite set of cells as a list (insertion sort along `cellLE`;
well defined because sorting any two permutations of the underlying list
gives the same result). -/
def cellsList (s : Finset Cell) : List Cell :=
  Quot.liftOn s.val (fun l => l.insertionSort cellLE) (fun l1 l2 h =>
    List.eq_of_perm_of_sorted
      ((List.perm_insertionSort cellLE l1).trans
        ((h : l1.Perm l2).trans (List.perm_insertionSort cellLE l2).symm))
      (List.sorted_insertionSort cellLE l1) (List.sorted_insertionSort cellLE l2))

/-- The sentence derived by subset resolution from a superset sentence `s1`
and a subset sentence `s2`: cells `s1.cells - s2.cells`, count
`s1.count - s2.count`. -/
def derived (s1 s2 : Sentence) : Sentence :=
  ⟨s1.cells \ s2.cells, s1.count - s2.count⟩

/-- One iteration of the `for sentence in self.knowledge` loop in
`mark_cells`, acting on the sentence at index `k`:
check `known_mines()` (truthy iff `len(cells) == count` and the set is
nonempty), snapshot it and mark every cell a mine; then re-read the (now
possibly mutated) sentence and do the same with `known_safes()`
(truthy iff `count == 0` and the set is nonempty).  The returned Bool is
whether this iteration set `changed = True`. -/
def extract_one (st : AIState) (k : Nat) : AIState × Bool :=
  match st.knowledge.get? k with
  | none => (st, false)
  | some s =>
    let p1 : AIState × Bool :=
      if (s.cells.card : Int) = s.count ∧ s.cells ≠ ∅ then
        ((cellsList s.cells).foldl AIState.mark_mine st, true)
      else (st, false)
    match p1.1.knowledge.get? k with
    | none => p1
    | some s2 =>
      if s2.count = 0 ∧ s2.cells ≠ ∅ then
        ((cellsList s2.cells).foldl AIState.mark_safe p1.1, true)
      else p1

/-- The whole extraction pass of `mark_cells` (the `for sentence in
self.knowledge` loop).  Marking mutates sentences in place but never changes
the length of the knowledge list, so the pass visits exactly the indices
`0 .. len-1`. -/
def extraction (st : AIState) : AIState × Bool :=
  (List.range st.knowledge.length).foldl
    (fun p k =>
      let q := extract_one p.1 k
      (q.1, p.2 || q.2))
    (st, false)

/-- Control location inside the mutually recursive
`mark_cells` / `infer_knowledge` pair.

* `markCells changed` — about to execute `mark_cells(changed)`;
* `inferKnowledge changed` — about to execute `infer_knowledge(changed)`
  (after the extraction pass has already run);
* `outerLoop i sf cs` — in `infer_knowledge`, about to fetch `sentence1` as
  the element of `self.knowledge` at index `i`; `sf` is the current value of
  the (never reset) `subset_found` flag and `cs` is `changed_sentences`;
* `innerLoop i j sf cs` — inside the `for sentence2 in self.knowledge` loop,
  about to fetch `sentence2` at index `j`;
* `done` — both functions have returned. -/
inductive Cfg where
  | markCells (changed : Bool)
  | inferKnowledge (changed : Bool)
  | outerLoop (i : Nat) (sf : Bool) (cs : List Sentence)
  | innerLoop (i : Nat) (j : Nat) (sf : Bool) (cs : List Sentence)
  | done
deriving DecidableEq

/-- One elementary step of the inference engine.  CPython list iteration is
index based and sees elements appended during iteration, which is why both
loops of `infer_knowledge` re-test their index against the *current* length
of the knowledge list. -/
def step : AIState × Cfg → AIState × Cfg
  | (st, Cfg.markCells c) =>
    if c then ((extraction st).1, Cfg.inferKnowledge (extraction st).2)
    else (st, Cfg.done)
  | (st, Cfg.inferKnowledge c) =>
    if c then (st, Cfg.outerLoop 0 false []) else (st, Cfg.done)
  | (st, Cfg.outerLoop i sf cs) =>
    if i < st.knowledge.length then (st, Cfg.innerLoop i 0 sf cs)
    else
      ({ st with knowledge := cs.foldl (fun l s => l.erase s) st.knowledge },
       Cfg.markCells (!cs.isEmpty))
  | (st, Cfg.innerLoop i j sf cs) =>
    if j < st.knowledge.length then
      if st.knowledge.getD j vacuous ≠ st.knowledge.getD i vacuous ∧
         (st.knowledge.getD j vacuous).cells ⊆ (st.knowledge.getD i vacuous).cells then
        ({ st with knowledge :=
             st.knowledge ++ [derived (st.knowledge.getD i vacuous) (st.knowledge.getD j vacuous)] },
         Cfg.innerLoop i (j + 1) true cs)
      else (st, Cfg.innerLoop i (j + 1) sf cs)
    else
      (st, Cfg.outerLoop (i + 1) sf
        (if sf then cs ++ [st.knowledge.getD i vacuous] else cs))
  | (st, Cfg.done) => (st, Cfg.done)

/-- Iterate `step` for `fuel` elementary steps. -/
def run : Nat → AIState × Cfg → AIState × Cfg
  | 0, x => x
  | n + 1, x => run n (step x)

/-- The neighbor list built by `add_knowledge` step 3: all cells within one
row and column of `cell`, skipping cells already in `moves_made`, `mines` or
`safes`, keeping those within the board bounds.  The membership tests run
against the state *after* `add_knowledge` has inserted `cell` into
`moves_made` and `safes`. -/
def nearby_cells (st : AIState) (cell : Cell) : List Cell :=
  (List.range 3).flatMap (fun di =>
    (List.range 3).flatMap (fun dj =>
      if (cell.1 - 1 + di, cell.2 - 1 + dj) ∈ st.moves_made ∨
         (cell.1 - 1 + di, cell.2 - 1 + dj) ∈ st.mines ∨
         (cell.1 - 1 + di, cell.2 - 1 + dj) ∈ st.safes then []
      else if 0 ≤ cell.1 - 1 + (di : Int) ∧ cell.1 - 1 + di < st.height ∧
              0 ≤ cell.2 - 1 + (dj : Int) ∧ cell.2 - 1 + dj < st.width then
        [(cell.1 - 1 + di, cell.2 - 1 + dj)]
      else []))

/-- The agent state after steps 1 and 2 of `add_knowledge`:
`self.moves_made.add(cell)` and `self.mark_safe(cell)`. -/
def post_mark_state (st : AIState) (cell : Cell) : AIState :=
  AIState.mark_safe { st with moves_made := insert cell st.moves_made } cell

/-- The new sentence appended in step 3.3 of `add_knowledge`:
`Sentence(nearby_cells, count)` (the Python constructor turns the list into
a set). -/
def added_sentence (st : AIState) (cell : Cell) (count : Int) : Sentence :=
  ⟨(nearby_cells (post_mark_state st cell) cell).toFinset, count⟩

/-- `add_knowledge` steps 1-3: record the move, mark the cell safe, and
append the new sentence to the knowledge base. -/
def add_knowledge_pre (st : AIState) (cell : Cell) (count : Int) : AIState :=
  let st2 := post_mark_state st cell
  { st2 with knowledge := st2.knowledge ++ [added_sentence st cell count] }

/-- `add_knowledge(cell, count)`: steps 1-3, then `self.mark_cells(True)`.
The engine is run for `fuel` elementary steps; `some` is returned only when
both `mark_cells` and `infer_knowledge` have actually returned within that
budget, `none` means the budget was exhausted first. -/
def add_knowledge (fuel : Nat) (st : AIState) (cell : Cell) (count : Int) :
    Option AIState :=
  let r := run fuel (add_knowledge_pre st cell count, Cfg.markCells true)
  if r.2 = Cfg.done then some r.1 else none

/-- The candidate list of `make_safe_move`: cells of the board (row-major)
that are in `safes` and in neither `moves_made` nor `mines`. -/
def safe_list (st : AIState) : List Cell :=
  (List.range st.height.toNat).flatMap (fun i =>
    (List.range st.width.toNat).flatMap (fun j =>
      if ((i : Int), (j : Int)) ∈ st.safes ∧ ((i : Int), (j : Int)) ∉ st.moves_made ∧
         ((i : Int), (j : Int)) ∉ st.mines then [((i : Int), (j : Int))] else []))

/-- `make_safe_move`: pick some element of `safe_list` (the `pick` argument
models `random.choice`), or `None` when the list is empty.  The function only
reads the agent state, so the resulting state is returned unchanged. -/
def make_safe_move (st : AIState) (pick : Nat) : Option Cell × AIState :=
  (if h : 0 < (safe_list st).length then
     some ((safe_list st).get ⟨pick % (safe_list st).length, Nat.mod_lt _ h⟩)
   else none, st)

/-- The candidate list of `make_random_move`: board cells (row-major) not in
`moves_made` and not in `mines`. -/
def random_list (st : AIState) : List Cell :=
  (List.range st.height.toNat).flatMap (fun i =>
    (List.range st.width.toNat).flatMap (fun j =>
      if ((i : Int), (j : Int)) ∉ st.moves_made ∧ ((i : Int), (j : Int)) ∉ st.mines then
        [((i : Int), (j : Int))] else []))

/-- `make_random_move`: `random.choice(random_list)`.  The code has no empty
check: on an empty candidate list `random.choice` raises `IndexError`,
modelled as `Except.error ()`.  The state is returned unchanged. -/
def make_random_move (st : AIState) (pick : Nat) : Except Unit Cell × AIState :=
  (if h : 0 < (random_list st).length then
     Except.ok ((random_list st).get ⟨pick % (random_list st).length, Nat.mod_lt _ h⟩)
   else Except.error (), st)

/-- The documented `Sentence` invariant: `0 ≤ count ≤ |cells|`. -/
def SentenceInv (s : Sentence) : Prop :=
  0 ≤ s.count ∧ s.count ≤ (s.cells.card : Int)

instance (s : Sentence) : Decidable (SentenceInv s) := by
  unfold SentenceInv; infer_instance

instance (priority := 2000) optionDecEq {α : Type} [DecidableEq α] :
    DecidableEq (Option α) := fun a b =>
  match a, b with
  | none, none => isTrue rfl
  | some x, some y => decidable_of_iff (x = y) (by simp)
  | none, some _ => isFalse (fun h => Option.noConfusion h)
  | some _, none => isFalse (fun h => Option.noConfusion h)

instance : DecidableEq (Except Unit Cell) := fun a b =>
  match a, b with
  | Except.ok x, Except.ok y => decidable_of_iff (x = y) (by simp)
  | Except.error _, Except.error _ => isTrue (by rfl)
  | Except.ok _, Except.error _ => isFalse (fun h => Except.noConfusion h)
  | Except.error _, Except.ok _ => isFalse (fun h => Except.noConfusion h)

/-- The three global cell sets of `a` are contained in those of `b`
(monotone growth of `moves_made`, `mines` and `safes`). -/
def SetsLE (a b : AIState) : Prop :=
  a.moves_made ⊆ b.moves_made ∧ a.mines ⊆ b.mines ∧ a.safes ⊆ b.safes

/-- `d` is a productive resolution partner for the superset sentence `s1`:
value-distinct from `s1`, its cells a subset of `s1`'s, and not the vacuous
sentence.  Processing such a partner appends `derived s1 d`, which is again a
productive partner for `s1`, so the inner loop of `infer_knowledge` never
catches up with the end of the list. -/
def Bad (s1 d : Sentence) : Prop :=
  d ≠ s1 ∧ d.cells ⊆ s1.cells ∧ d ≠ vacuous

/-- Divergence invariant at the head of the `sentence1` loop of
`infer_knowledge`: some sentence still to be visited is either a non-vacuous
sentence while the vacuous sentence is in the knowledge base (its inner pass
then appends a fresh copy of it, so the loop never ends), or the superset of
a productive resolution pair. -/
def outerInv (kb : List Sentence) (i : Nat) : Prop :=
  (vacuous ∈ kb ∧ ∃ w, i ≤ w ∧ w < kb.length ∧ kb.getD w vacuous ≠ vacuous) ∨
  (∃ w v, i ≤ w ∧ w < kb.length ∧ v < kb.length ∧
    Bad (kb.getD w vacuous) (kb.getD v vacuous))

/-- Divergence invariant at the head of the `sentence2` loop of
`infer_knowledge` (`i` indexes `sentence1`, `j` the next `sentence2`). -/
def innerInv (kb : List Sentence) (i j : Nat) : Prop :=
  i < kb.length ∧
  ((vacuous ∈ kb ∧ ∃ w, i < w ∧ w < kb.length ∧ kb.getD w vacuous ≠ vacuous) ∨
   (vacuous ∈ kb ∧ kb.getD i vacuous ≠ vacuous ∧
     ∃ v, j ≤ v ∧ v < kb.length ∧ kb.getD v vacuous = vacuous) ∨
   (∃ v, j ≤ v ∧ v < kb.length ∧ Bad (kb.getD i vacuous) (kb.getD v vacuous)) ∨
   (∃ w v, i < w ∧ w < kb.length ∧ v < kb.length ∧
     Bad (kb.getD w vacuous) (kb.getD v vacuous)))

/-- Machine configurations from which the inference engine can never reach
`Cfg.done`. -/
def Diverging : AIState × Cfg → Prop
  | (st, Cfg.outerLoop i _ _) => outerInv st.knowledge i
  | (st, Cfg.innerLoop i j _ _) => innerInv st.knowledge i j
  | _ => False

/-- A fresh `MinesweeperAI(3, 3)`. -/
def aiThree : AIState := AIState.initial 3 3

/-- A fresh `MinesweeperAI(2, 2)`. -/
def aiTwo : AIState := AIState.initial 2 2

/-- A fresh `MinesweeperAI(1, 1)`. -/
def aiOne : AIState := AIState.initial 1 1

/-- Sentence `A` of the spec's subset-resolution example. -/
def sentA : Sentence := ⟨{(0, 0), (0, 1), (0, 2)}, 1⟩

/-- Sentence `B` of the spec's subset-resolution example. -/
def sentB : Sentence := ⟨{(0, 0), (0, 1)}, 1⟩

/-- An agent whose knowledge base holds exactly the example sentences `A`
and `B`. -/
def stAB : AIState := ⟨3, 3, ∅, ∅, ∅, [sentA, sentB]⟩

/-- The agent state after `add_knowledge((1, 1), 1)` on a fresh 3×3 agent. -/
def stOne : AIState :=
  ⟨3, 3, {(1, 1)}, ∅, {(1, 1)},
   [⟨{(0, 0), (0, 1), (0, 2), (1, 0), (1, 2), (2, 0), (2, 1), (2, 2)}, 1⟩]⟩

/-- The agent state after `add_knowledge((1, 1), 1)` and then
`add_knowledge((0, 1), 1)` on a fresh 3×3 agent (the counts are those of a
3×3 board whose only mine is at `(0, 0)`). -/
def stTwo : AIState :=
  ⟨3, 3, {(1, 1), (0, 1)}, ∅, {(1, 1), (0, 1)},
   [⟨{(0, 0), (0, 2), (1, 0), (1, 2), (2, 0), (2, 1), (2, 2)}, 1⟩,
    ⟨{(0, 0), (0, 2), (1, 0), (1, 2)}, 1⟩]⟩

/-- A fresh 2×2 agent after truthfully flagging the three mines of a 2×2
board whose mines are `(0,1)`, `(1,0)`, `(1,1)`. -/
def stC5pre : AIState :=
  ((aiTwo.mark_mine (0, 1)).mark_mine (1, 0)).mark_mine (1, 1)

/-- The state produced by `add_knowledge((0, 0), 3)` from `stC5pre`: the
new sentence has an empty cell set but count 3 (the known-mine neighbors
were filtered out of the cell set while the count was kept). -/
def stC5bad : AIState :=
  ⟨2, 2, {(0, 0)}, {(0, 1), (1, 0), (1, 1)}, {(0, 0)}, [⟨∅, 3⟩]⟩

theorem run_succ (n : Nat) (x : AIState × Cfg) : run (n + 1) x = run n (step x) := rfl

theorem run_two (n : Nat) (x : AIState × Cfg) :
    run (n + 2) x = run n (step (step x)) := rfl

theorem getD_append_lt (l l' : List Sentence) (n : Nat) (h : n < l.length) :
    (l ++ l').getD n vacuous = l.getD n vacuous :=
  List.getD_append l l' vacuous n h

theorem getD_append_length (l : List Sentence) (s : Sentence) :
    (l ++ [s]).getD l.length vacuous = s := by
  rw [List.getD_append_right l [s] vacuous l.length (Nat.le_refl _)]
  simp

theorem exists_getD_of_mem {kb : List Sentence} {s : Sentence} (h : s ∈ kb) :
    ∃ v, v < kb.length ∧ kb.getD v vacuous = s := by
  obtain ⟨n, hn, he⟩ := List.mem_iff_getElem.mp h
  exact ⟨n, hn, by rw [List.getD_eq_getElem kb vacuous hn]; exact he⟩

theorem derived_vacuous (s : Sentence) : derived s vacuous = s := by
  obtain ⟨c, n⟩ := s
  simp [derived, vacuous]

theorem vacuous_cells_subset (s : Sentence) : vacuous.cells ⊆ s.cells := by
  simp [vacuous]

theorem bad_derived {s1 d : Sentence} (h : Bad s1 d) : Bad s1 (derived s1 d) := by
  obtain ⟨c1, n1⟩ := s1
  obtain ⟨c2, n2⟩ := d
  obtain ⟨hne, hsub, hnv⟩ := h
  refine ⟨?_, Finset.sdiff_subset, ?_⟩
  · intro he
    simp only [derived, Sentence.mk.injEq] at he
    obtain ⟨hc, hn⟩ := he
    have hn2 : n2 = 0 := by omega
    have hc2 : c2 = ∅ := by
      refine Finset.eq_empty_iff_forall_not_mem.mpr (fun x hx => ?_)
      have hx1 : x ∈ c1 := hsub hx
      rw [← hc] at hx1
      exact (Finset.mem_sdiff.mp hx1).2 hx
    exact hnv (by rw [hc2, hn2]; rfl)
  · intro he
    simp only [derived, vacuous, Sentence.mk.injEq] at he
    obtain ⟨hc, hn⟩ := he
    have hc' : c1 ⊆ c2 := Finset.sdiff_eq_empty_iff_subset.mp hc
    have hc2 : c2 = c1 := Finset.Subset.antisymm hsub hc'
    exact hne (by rw [hc2]; congr 1; omega)

theorem step_outer_lt {st : AIState} {i : Nat} {sf : Bool} {cs : List Sentence}
    (h : i < st.knowledge.length) :
    step (st, Cfg.outerLoop i sf cs) = (st, Cfg.innerLoop i 0 sf cs) := by
  simp only [step, if_pos h]

theorem step_outer_exit {st : AIState} {i : Nat} {sf : Bool} {cs : List Sentence}
    (h : ¬ i < st.knowledge.length) :
    step (st, Cfg.outerLoop i sf cs) =
      ({ st with knowledge := cs.foldl (fun l s => l.erase s) st.knowledge },
       Cfg.markCells (!cs.isEmpty)) := by
  simp only [step, if_neg h]

theorem step_inner_app {st : AIState} {i j : Nat} {sf : Bool} {cs : List Sentence}
    (hj : j < st.knowledge.length)
    (hc : st.knowledge.getD j vacuous ≠ st.knowledge.getD i vacuous ∧
          (st.knowledge.getD j vacuous).cells ⊆ (st.knowledge.getD i vacuous).cells) :
    step (st, Cfg.innerLoop i j sf cs) =
      ({ st with knowledge := st.knowledge ++
           [derived (st.knowledge.getD i vacuous) (st.knowledge.getD j vacuous)] },
       Cfg.innerLoop i (j + 1) true cs) := by
  simp only [step, if_pos hj, if_pos hc]

theorem step_inner_skip {st : AIState} {i j : Nat} {sf : Bool} {cs : List Sentence}
    (hj : j < st.knowledge.length)
    (hc : ¬ (st.knowledge.getD j vacuous ≠ st.knowledge.getD i vacuous ∧
             (st.knowledge.getD j vacuous).cells ⊆ (st.knowledge.getD i vacuous).cells)) :
    step (st, Cfg.innerLoop i j sf cs) = (st, Cfg.innerLoop i (j + 1) sf cs) := by
  simp only [step, if_pos hj, if_neg hc]

theorem step_inner_exit {st : AIState} {i j : Nat} {sf : Bool} {cs : List Sentence}
    (hj : ¬ j < st.knowledge.length) :
    step (st, Cfg.innerLoop i j sf cs) =
      (st, Cfg.outerLoop (i + 1) sf
        (if sf then cs ++ [st.knowledge.getD i vacuous] else cs)) := by
  simp only [step, if_neg hj]

theorem step_div {x : AIState × Cfg} (hx : Diverging x) : Diverging (step x) := by
  obtain ⟨st, cfg⟩ := x
  cases cfg with
  | markCells c => exact False.elim hx
  | inferKnowledge c => exact False.elim hx
  | done => exact False.elim hx
  | outerLoop i sf cs =>
    have hx' : outerInv st.knowledge i := hx
    have hlt : i < st.knowledge.length := by
      rcases hx' with ⟨_, w, h1, h2, _⟩ | ⟨w, v, h1, h2, _, _⟩ <;> omega
    rw [step_outer_lt hlt]
    show innerInv st.knowledge i 0
    refine ⟨hlt, ?_⟩
    rcases hx' with ⟨hv, w, h1, h2, h3⟩ | ⟨w, v, h1, h2, h3, h4⟩
    · rcases Nat.lt_or_ge i w with hiw | hiw
      · exact Or.inl ⟨hv, w, hiw, h2, h3⟩
      · have hiw' : w = i := by omega
        subst hiw'
        obtain ⟨v, hv1, hv2⟩ := exists_getD_of_mem hv
        exact Or.inr (Or.inl ⟨hv, h3, v, Nat.zero_le _, hv1, hv2⟩)
    · rcases Nat.lt_or_ge i w with hiw | hiw
      · exact Or.inr (Or.inr (Or.inr ⟨w, v, hiw, h2, h3, h4⟩))
      · have hiw' : w = i := by omega
        subst hiw'
        exact Or.inr (Or.inr (Or.inl ⟨v, Nat.zero_le _, h3, h4⟩))
  | innerLoop i j sf cs =>
    have hx' : innerInv st.knowledge i j := hx
    obtain ⟨hi, hd⟩ := hx'
    by_cases hj : j < st.knowledge.length
    · by_cases hc : st.knowledge.getD j vacuous ≠ st.knowledge.getD i vacuous ∧
          (st.knowledge.getD j vacuous).cells ⊆ (st.knowledge.getD i vacuous).cells
      · rw [step_inner_app hj hc]
        show innerInv
          (st.knowledge ++ [derived (st.knowledge.getD i vacuous) (st.knowledge.getD j vacuous)])
          i (j + 1)
        have hlen :
            (st.knowledge ++
              [derived (st.knowledge.getD i vacuous) (st.knowledge.getD j vacuous)]).length
              = st.knowledge.length + 1 := by simp
        refine ⟨by rw [hlen]; omega, ?_⟩
        rcases hd with ⟨hv, w, h1, h2, h3⟩ | ⟨hv, hne, v, h1, h2, h3⟩ |
          ⟨v, h1, h2, h3⟩ | ⟨w, v, h1, h2, h3, h4⟩
        · exact Or.inl ⟨List.mem_append_left _ hv, w, h1, by rw [hlen]; omega,
            by rw [getD_append_lt _ _ _ h2]; exact h3⟩
        · rcases Nat.lt_or_ge j v with hjv | hjv
          · exact Or.inr (Or.inl ⟨List.mem_append_left _ hv,
              by rw [getD_append_lt _ _ _ hi]; exact hne,
              v, hjv, by rw [hlen]; omega, by rw [getD_append_lt _ _ _ h2]; exact h3⟩)
          · have hvj : v = j := by omega
            subst hvj
            refine Or.inl ⟨List.mem_append_left _ hv, st.knowledge.length, hi,
              by rw [hlen]; omega, ?_⟩
            rw [getD_append_length, h3, derived_vacuous]
            exact hne
        · rcases Nat.lt_or_ge j v with hjv | hjv
          · exact Or.inr (Or.inr (Or.inl ⟨v, hjv, by rw [hlen]; omega,
              by rw [getD_append_lt _ _ _ hi, getD_append_lt _ _ _ h2]; exact h3⟩))
          · have hvj : v = j := by omega
            subst hvj
            refine Or.inr (Or.inr (Or.inl ⟨st.knowledge.length, by omega,
              by rw [hlen]; omega, ?_⟩))
            rw [getD_append_lt _ _ _ hi, getD_append_length]
            exact bad_derived h3
        · exact Or.inr (Or.inr (Or.inr ⟨w, v, h1, by rw [hlen]; omega, by rw [hlen]; omega,
            by rw [getD_append_lt _ _ _ h2, getD_append_lt _ _ _ h3]; exact h4⟩))
      · rw [step_inner_skip hj hc]
        show innerInv st.knowledge i (j + 1)
        refine ⟨hi, ?_⟩
        rcases hd with dj1 | ⟨hv, hne, v, h1, h2, h3⟩ | ⟨v, h1, h2, h3⟩ | dj4
        · exact Or.inl dj1
        · have hvj : v ≠ j := by
            intro he
            subst he
            exact hc ⟨by rw [h3]; exact Ne.symm hne, by rw [h3]; exact vacuous_cells_subset _⟩
          exact Or.inr (Or.inl ⟨hv, hne, v, by omega, h2, h3⟩)
        · have hvj : v ≠ j := by
            intro he
            subst he
            exact hc ⟨h3.1, h3.2.1⟩
          exact Or.inr (Or.inr (Or.inl ⟨v, by omega, h2, h3⟩))
        · exact Or.inr (Or.inr (Or.inr dj4))
    · rw [step_inner_exit hj]
      show outerInv st.knowledge (i + 1)
      rcases hd with ⟨hv, w, h1, h2, h3⟩ | ⟨_, _, v, h1, h2, _⟩ |
        ⟨v, h1, h2, _⟩ | ⟨w, v, h1, h2, h3, h4⟩
      · exact Or.inl ⟨hv, w, by omega, h2, h3⟩
      · exact absurd (by omega : j < st.knowledge.length) hj
      · exact absurd (by omega : j < st.knowledge.length) hj
      · exact Or.inr ⟨w, v, by omega, h2, h3, h4⟩

theorem div_ne_done {x : AIState × Cfg} (hx : Diverging x) : x.2 ≠ Cfg.done := by
  obtain ⟨st, cfg⟩ := x
  cases cfg with
  | markCells c => exact False.elim hx
  | inferKnowledge c => exact False.elim hx
  | done => exact False.elim hx
  | outerLoop i sf cs => exact fun h => Cfg.noConfusion h
  | innerLoop i j sf cs => exact fun h => Cfg.noConfusion h

theorem div_run : ∀ (n : Nat) (x : AIState × Cfg), Diverging x → Diverging (run n x)
  | 0, _, hx => hx
  | n + 1, x, hx => div_run n (step x) (step_div hx)

theorem run_ne_done (n : Nat) (x : AIState × Cfg) (hx : Diverging x) :
    (run n x).2 ≠ Cfg.done :=
  div_ne_done (div_run n x hx)

theorem step_mem {x : AIState × Cfg} {s : Sentence} (hx : Diverging x)
    (hs : s ∈ x.1.knowledge) : s ∈ (step x).1.knowledge := by
  obtain ⟨st, cfg⟩ := x
  cases cfg with
  | markCells c => exact False.elim hx
  | inferKnowledge c => exact False.elim hx
  | done => exact False.elim hx
  | outerLoop i sf cs =>
    have hx' : outerInv st.knowledge i := hx
    have hlt : i < st.knowledge.length := by
      rcases hx' with ⟨_, w, h1, h2, _⟩ | ⟨w, v, h1, h2, _, _⟩ <;> omega
    rw [step_outer_lt hlt]
    exact hs
  | innerLoop i j sf cs =>
    by_cases hj : j < st.knowledge.length
    · by_cases hc : st.knowledge.getD j vacuous ≠ st.knowledge.getD i vacuous ∧
          (st.knowledge.getD j vacuous).cells ⊆ (st.knowledge.getD i vacuous).cells
      · rw [step_inner_app hj hc]
        exact List.mem_append_left _ hs
      · rw [step_inner_skip hj hc]
        exact hs
    · rw [step_inner_exit hj]
      exact hs

theorem run_mem : ∀ (n : Nat) (x : AIState × Cfg) (s : Sentence),
    Diverging x → s ∈ x.1.knowledge → s ∈ (run n x).1.knowledge
  | 0, _, _, _, hs => hs
  | n + 1, x, s, hx, hs => run_mem n (step x) s (step_div hx) (step_mem hx hs)

theorem setsLE_refl (a : AIState) : SetsLE a a :=
  ⟨Finset.Subset.refl _, Finset.Subset.refl _, Finset.Subset.refl _⟩

theorem setsLE_trans {a b c : AIState} (h1 : SetsLE a b) (h2 : SetsLE b c) : SetsLE a c :=
  ⟨h1.1.trans h2.1, h1.2.1.trans h2.2.1, h1.2.2.trans h2.2.2⟩

theorem mark_mine_setsLE (st : AIState) (c : Cell) : SetsLE st (st.mark_mine c) :=
  ⟨Finset.Subset.refl _, Finset.subset_insert _ _, Finset.Subset.refl _⟩

theorem mark_safe_setsLE (st : AIState) (c : Cell) : SetsLE st (st.mark_safe c) :=
  ⟨Finset.Subset.refl _, Finset.Subset.refl _, Finset.subset_insert _ _⟩

theorem foldl_mark_setsLE {f : AIState → Cell → AIState}
    (hf : ∀ a c, SetsLE a (f a c)) :
    ∀ (l : List Cell) (a : AIState), SetsLE a (l.foldl f a)
  | [], a => setsLE_refl a
  | c :: l, a => setsLE_trans (hf a c) (foldl_mark_setsLE hf l (f a c))

theorem extract_one_setsLE (st : AIState) (k : Nat) : SetsLE st (extract_one st k).1 := by
  unfold extract_one
  cases hget : st.knowledge.get? k with
  | none => exact setsLE_refl st
  | some s =>
    by_cases h1 : (s.cells.card : Int) = s.count ∧ s.cells ≠ ∅
    · simp only [if_pos h1]
      cases hget2 : ((cellsList s.cells).foldl AIState.mark_mine st).knowledge.get? k with
      | none => exact foldl_mark_setsLE mark_mine_setsLE _ st
      | some s2 =>
        by_cases h2 : s2.count = 0 ∧ s2.cells ≠ ∅
        · simp only [if_pos h2]
          exact setsLE_trans (foldl_mark_setsLE mark_mine_setsLE _ st)
            (foldl_mark_setsLE mark_safe_setsLE _ _)
        · simp only [if_neg h2]
          exact foldl_mark_setsLE mark_mine_setsLE _ st
    · simp only [if_neg h1]
      cases hget2 : st.knowledge.get? k with
      | none => exact setsLE_refl st
      | some s2 =>
        by_cases h2 : s2.count = 0 ∧ s2.cells ≠ ∅
        · simp only [if_pos h2]
          exact foldl_mark_setsLE mark_safe_setsLE _ st
        · simp only [if_neg h2]
          exact setsLE_refl st

theorem foldl_pair_setsLE (g : AIState × Bool → Nat → AIState × Bool)
    (hg : ∀ p k, SetsLE p.1 (g p k).1) :
    ∀ (l : List Nat) (p : AIState × Bool), SetsLE p.1 ((l.foldl g p).1)
  | [], p => setsLE_refl p.1
  | k :: l, p => setsLE_trans (hg p k) (foldl_pair_setsLE g hg l (g p k))

theorem extraction_setsLE (st : AIState) : SetsLE st (extraction st).1 :=
  foldl_pair_setsLE
    (fun p k => ((extract_one p.1 k).1, p.2 || (extract_one p.1 k).2))
    (fun p k => extract_one_setsLE p.1 k)
    (List.range st.knowledge.length) (st, false)

theorem step_setsLE (x : AIState × Cfg) : SetsLE x.1 (step x).1 := by
  obtain ⟨st, cfg⟩ := x
  cases cfg with
  | markCells c =>
    cases c with
    | true =>
      have h : (step (st, Cfg.markCells true)).1 = (extraction st).1 := by
        simp [step]
      rw [h]
      exact extraction_setsLE st
    | false => exact setsLE_refl st
  | inferKnowledge c => cases c <;> exact setsLE_refl st
  | done => exact setsLE_refl st
  | outerLoop i sf cs =>
    by_cases h : i < st.knowledge.length
    · rw [step_outer_lt h]; exact setsLE_refl st
    · rw [step_outer_exit h]
      exact ⟨Finset.Subset.refl _, Finset.Subset.refl _, Finset.Subset.refl _⟩
  | innerLoop i j sf cs =>
    by_cases hj : j < st.knowledge.length
    · by_cases hc : st.knowledge.getD j vacuous ≠ st.knowledge.getD i vacuous ∧
          (st.knowledge.getD j vacuous).cells ⊆ (st.knowledge.getD i vacuous).cells
      · rw [step_inner_app hj hc]
        exact ⟨Finset.Subset.refl _, Finset.Subset.refl _, Finset.Subset.refl _⟩
      · rw [step_inner_skip hj hc]; exact setsLE_refl st
    · rw [step_inner_exit hj]; exact setsLE_refl st

theorem run_setsLE : ∀ (n : Nat) (x : AIState × Cfg), SetsLE x.1 (run n x).1
  | 0, x => setsLE_refl x.1
  | n + 1, x => setsLE_trans (step_setsLE x) (run_setsLE n (step x))

theorem add_knowledge_pre_setsLE (st : AIState) (cell : Cell) (count : Int) :
    SetsLE st (add_knowledge_pre st cell count) :=
  ⟨Finset.subset_insert _ _, Finset.Subset.refl _, Finset.subset_insert _ _⟩

theorem sentence_mark_mine_idem (s : Sentence) (c : Cell) :
    (s.mark_mine c).mark_mine c = s.mark_mine c := by
  by_cases h : c ∈ s.cells
  · simp [Sentence.mark_mine, h, Finset.not_mem_erase]
  · simp [Sentence.mark_mine, h]

theorem sentence_mark_mine_inv {s : Sentence} {c : Cell} (h : SentenceInv s)
    (hc : c ∈ s.cells → 1 ≤ s.count) : SentenceInv (s.mark_mine c) := by
  obtain ⟨h0, h1⟩ := h
  unfold Sentence.mark_mine
  split_ifs with hm
  · have hcard : 1 ≤ s.cells.card := Finset.card_pos.mpr ⟨c, hm⟩
    have hc1 := hc hm
    refine ⟨by simp; omega, ?_⟩
    simp only [Finset.card_erase_of_mem hm]
    omega
  · exact ⟨h0, h1⟩

theorem sentence_mark_safe_inv {s : Sentence} {c : Cell} (h : SentenceInv s)
    (hc : c ∈ s.cells → s.count < (s.cells.card : Int)) :
    SentenceInv (s.mark_safe c) := by
  obtain ⟨h0, h1⟩ := h
  unfold Sentence.mark_safe
  split_ifs with hm
  · have hcard : 1 ≤ s.cells.card := Finset.card_pos.mpr ⟨c, hm⟩
    have hc1 := hc hm
    refine ⟨h0, ?_⟩
    simp only [Finset.card_erase_of_mem hm]
    omega
  · exact ⟨h0, h1⟩

theorem mem_random_list {st : AIState} {x : Cell} (h : x ∈ random_list st) :
    x ∉ st.moves_made ∧ x ∉ st.mines := by
  simp only [random_list, List.mem_flatMap, List.mem_range] at h
  obtain ⟨i, hi, j, hj, hx⟩ := h
  split_ifs at hx with hcond
  · rw [List.mem_singleton] at hx
    subst hx
    exact hcond
  · simp at hx

theorem mem_nearby_cells {st : AIState} {cell p : Cell} :
    p ∈ nearby_cells st cell ↔
      (cell.1 - 1 ≤ p.1 ∧ p.1 ≤ cell.1 + 1 ∧ cell.2 - 1 ≤ p.2 ∧ p.2 ≤ cell.2 + 1) ∧
      (p ∉ st.moves_made ∧ p ∉ st.mines ∧ p ∉ st.safes) ∧
      (0 ≤ p.1 ∧ p.1 < st.height ∧ 0 ≤ p.2 ∧ p.2 < st.width) := by
  simp only [nearby_cells, List.mem_flatMap, List.mem_range]
  constructor
  · rintro ⟨di, hdi, dj, hdj, hp⟩
    split_ifs at hp with h1 h2
    · simp at hp
    · rw [List.mem_singleton] at hp
      subst hp
      push_neg at h1
      exact ⟨⟨by omega, by omega, by omega, by omega⟩, h1, h2⟩
    · simp at hp
  · rintro ⟨⟨hb1, hb2, hb3, hb4⟩, hexcl, hbnd⟩
    refine ⟨(p.1 - (cell.1 - 1)).toNat, by omega, (p.2 - (cell.2 - 1)).toNat, by omega, ?_⟩
    have e1 : cell.1 - 1 + (((p.1 - (cell.1 - 1)).toNat : Nat) : Int) = p.1 := by omega
    have e2 : cell.2 - 1 + (((p.2 - (cell.2 - 1)).toNat : Nat) : Int) = p.2 := by omega
    rw [e1, e2, Prod.mk.eta]
    rw [if_neg (by push_neg; exact hexcl), if_pos hbnd]
    exact List.mem_singleton.mpr rfl

theorem stAB_outer_div : Diverging (stAB, Cfg.outerLoop 0 false []) := by
  show outerInv stAB.knowledge 0
  exact Or.inr ⟨0, 1, Nat.le_refl 0, by decide, by decide, by decide, by decide, by decide⟩

theorem step_stAB_infer :
    step (stAB, Cfg.inferKnowledge true) = (stAB, Cfg.outerLoop 0 false []) := by decide

theorem stAB_infer_ne_done (n : Nat) :
    (run n (stAB, Cfg.inferKnowledge true)).2 ≠ Cfg.done := by
  rcases n with _ | m
  · decide
  · rw [run_succ, step_stAB_infer]
    exact run_ne_done m _ stAB_outer_div

theorem addk3_run_two :
    (run 2 (add_knowledge_pre stTwo (2, 1) 0, Cfg.markCells true)).2
      = Cfg.outerLoop 0 false [] := by decide

theorem addk3_div :
    Diverging (run 2 (add_knowledge_pre stTwo (2, 1) 0, Cfg.markCells true)) := by
  have heta : run 2 (add_knowledge_pre stTwo (2, 1) 0, Cfg.markCells true)
      = ((run 2 (add_knowledge_pre stTwo (2, 1) 0, Cfg.markCells true)).1,
         (run 2 (add_knowledge_pre stTwo (2, 1) 0, Cfg.markCells true)).2) := rfl
  rw [heta, addk3_run_two]
  show outerInv
    ((run 2 (add_knowledge_pre stTwo (2, 1) 0, Cfg.markCells true)).1).knowledge 0
  exact Or.inl ⟨by decide, 0, Nat.le_refl 0, by decide, by decide⟩

theorem addk3_ne_done (n : Nat) :
    (run n (add_knowledge_pre stTwo (2, 1) 0, Cfg.markCells true)).2 ≠ Cfg.done := by
  rcases n with _ | (_ | m)
  · decide
  · decide
  · show (run m (step (step (add_knowledge_pre stTwo (2, 1) 0, Cfg.markCells true)))).2
      ≠ Cfg.done
    have h2 : step (step (add_knowledge_pre stTwo (2, 1) 0, Cfg.markCells true))
        = run 2 (add_knowledge_pre stTwo (2, 1) 0, Cfg.markCells true) := rfl
    rw [h2]
    exact run_ne_done m _ addk3_div

/-- Claim C1 is false of the code: `add_knowledge` does NOT always terminate.
On a fresh 3×3 agent, after `add_knowledge((1,1), 1)` and
`add_knowledge((0,1), 1)` (the true counts of a board whose only mine is
`(0,0)`), the call `add_knowledge((2,1), 0)` runs forever: its extraction
pass marks four cells safe, and the subsequent resolution pass appends a
copy of a sentence on every iteration (the loops of `infer_knowledge`
iterate over the list being appended to), so no fuel bound suffices. -/
theorem claim_C1_code_bug (fuel : Nat) :
    ((add_knowledge 5 aiThree (1, 1) 1).bind (fun s => add_knowledge 5 s (0, 1) 1)).bind
      (fun s => add_knowledge fuel s (2, 1) 0) = none := by
  have h12 : (add_knowledge 5 aiThree (1, 1) 1).bind (fun s => add_knowledge 5 s (0, 1) 1)
      = some stTwo := by decide
  rw [h12, Option.some_bind]
  show (if (run fuel (add_knowledge_pre stTwo (2, 1) 0, Cfg.markCells true)).2 = Cfg.done
        then some (run fuel (add_knowledge_pre stTwo (2, 1) 0, Cfg.markCells true)).1
        else none) = none
  rw [if_neg (addk3_ne_done fuel)]

/-- Claim C2 is false of the code: when a sentence serves as the superset of
a subset pair, the resolution pass never completes, so no sentence is ever
removed.  Starting `infer_knowledge(True)` on the knowledge base `[A, B]`
with `B.cells ⊆ A.cells` and `B ≠ A`: for every number of elementary steps,
`A` is still in the knowledge base and the pass (hence the removal loop at
its end) has not been reached. -/
theorem claim_C2_code_bug (n : Nat) :
    sentB ≠ sentA ∧ sentB.cells ⊆ sentA.cells ∧
    sentA ∈ (run n (stAB, Cfg.inferKnowledge true)).1.knowledge ∧
    (run n (stAB, Cfg.inferKnowledge true)).2 ≠ Cfg.done := by
  refine ⟨by decide, by decide, ?_, ?_⟩
  · rcases n with _ | m
    · decide
    · rw [run_succ, step_stAB_infer]
      exact run_mem m _ _ stAB_outer_div (by decide)
  · exact stAB_infer_ne_done n

/-- Claim C3 is false of the code.  With knowledge base exactly `[A, B]`
(`A = {(0,0),(0,1),(0,2)} = 1`, `B = {(0,0),(0,1)} = 1`): invoked the way
`add_knowledge` invokes it (`mark_cells(True)`), the engine returns after
two phase changes with the agent unchanged — nothing is derived, `(0,2)` is
not marked safe, `A` is not removed; invoked directly as
`infer_knowledge(True)`, the engine never returns at all. -/
theorem claim_C3_code_bug :
    run 5 (stAB, Cfg.markCells true) = (stAB, Cfg.done) ∧
    ((0 : Int), (2 : Int)) ∉ stAB.safes ∧
    (∀ n : Nat, (run n (stAB, Cfg.inferKnowledge true)).2 ≠ Cfg.done) :=
  ⟨by decide, by decide, stAB_infer_ne_done⟩

/-- Claim C4 is false of the code: on a fresh 3×3 agent,
`add_knowledge((1,1), 1)` followed by `add_knowledge((0,1), 1)` terminates
with an empty `mines` set — `(0,0)` is not deduced.  The resolution phase
never runs because `mark_cells` passes `infer_knowledge` the flag of the
extraction pass, which marked nothing. -/
theorem claim_C4_code_bug :
    (add_knowledge 5 aiThree (1, 1) 1).bind (fun s => add_knowledge 5 s (0, 1) 1)
      = some stTwo ∧
    ((0 : Int), (0 : Int)) ∉ stTwo.mines :=
  ⟨by decide, by decide⟩

/-- Counterexample to claim C5: after truthfully marking the three mines of
a 2×2 board and then revealing `(0,0)` with its true count 3,
`add_knowledge` terminates and the knowledge base holds the sentence
`{} = 3`, which violates `0 ≤ count ≤ |cells|` (the known-mine neighbors
are excluded from the new sentence's cell set but the count is kept). -/
theorem claim_C5_counterexample :
    add_knowledge 5 stC5pre (0, 0) 3 = some stC5bad ∧
    ¬ SentenceInv (stC5bad.knowledge.getD 0 vacuous) := by
  refine ⟨by decide, ?_⟩
  unfold SentenceInv
  decide

/-- Amended claim C5: the `Sentence` invariant `0 ≤ count ≤ |cells|` holds
at creation iff the supplied count lies within `[0, |filtered neighbor
set|]`, and it is preserved by the agent-level `mark_mine` (resp.
`mark_safe`) broadcast provided every sentence containing the marked cell
has `count ≥ 1` (resp. `count < |cells|`).  (Unconditionally the claim is
false: see the counterexample.) -/
theorem claim_C5_corrected_amended :
    (∀ (st : AIState) (cell : Cell) (count : Int),
        0 ≤ count →
        count ≤ ((nearby_cells (post_mark_state st cell) cell).toFinset.card : Int) →
        SentenceInv (added_sentence st cell count)) ∧
    (∀ (st : AIState) (c : Cell),
        (∀ s ∈ st.knowledge, SentenceInv s ∧ (c ∈ s.cells → 1 ≤ s.count)) →
        ∀ t ∈ (st.mark_mine c).knowledge, SentenceInv t) ∧
    (∀ (st : AIState) (c : Cell),
        (∀ s ∈ st.knowledge, SentenceInv s ∧ (c ∈ s.cells → s.count < (s.cells.card : Int))) →
        ∀ t ∈ (st.mark_safe c).knowledge, SentenceInv t) := by
  refine ⟨fun st cell count h0 h1 => ⟨h0, h1⟩, fun st c h t ht => ?_, fun st c h t ht => ?_⟩
  · simp only [AIState.mark_mine, List.mem_map] at ht
    obtain ⟨s, hs, rfl⟩ := ht
    exact sentence_mark_mine_inv (h s hs).1 (h s hs).2
  · simp only [AIState.mark_safe, List.mem_map] at ht
    obtain ⟨s, hs, rfl⟩ := ht
    exact sentence_mark_safe_inv (h s hs).1 (h s hs).2

/-- Witness for the amended claim C5 at concrete inputs. -/
theorem claim_C5_witness :
    SentenceInv (added_sentence aiTwo (0, 0) 1) ∧
    SentenceInv (Sentence.mark_mine ⟨{((0 : Int), (0 : Int))}, 1⟩ ((0 : Int), (0 : Int))) ∧
    SentenceInv (Sentence.mark_safe ⟨{((0 : Int), (0 : Int)), ((0 : Int), (1 : Int))}, 1⟩
      ((0 : Int), (0 : Int))) := by
  refine ⟨claim_C5_corrected_amended.1 aiTwo (0, 0) 1 (by decide) (by decide), ?_, ?_⟩
  · exact claim_C5_corrected_amended.2.1 ⟨2, 2, ∅, ∅, ∅, [⟨{((0 : Int), (0 : Int))}, 1⟩]⟩
      (0, 0) (by decide)
      (Sentence.mark_mine ⟨{((0 : Int), (0 : Int))}, 1⟩ ((0 : Int), (0 : Int))) (by decide)
  · exact claim_C5_corrected_amended.2.2
      ⟨2, 2, ∅, ∅, ∅, [⟨{((0 : Int), (0 : Int)), ((0 : Int), (1 : Int))}, 1⟩]⟩
      (0, 0) (by decide)
      (Sentence.mark_safe ⟨{((0 : Int), (0 : Int)), ((0 : Int), (1 : Int))}, 1⟩
        ((0 : Int), (0 : Int))) (by decide)

/-- Claim C6, first part confirmed / second part a code bug:
`make_random_move` never returns a cell of `moves_made` or `mines`, but on
a board with no candidate left it raises `IndexError` (`random.choice` of
an empty list), modelled here as `Except.error`, instead of returning the
"no move" result: witness a 1×1 agent that has already revealed its only
cell. -/
theorem claim_C6_code_bug :
    (∀ (st : AIState) (pick : Nat) (c : Cell),
        (make_random_move st pick).1 = Except.ok c → c ∉ st.moves_made ∧ c ∉ st.mines) ∧
    (add_knowledge 5 aiOne (0, 0) 0).map (fun s => (make_random_move s 0).1)
      = some (Except.error ()) := by
  constructor
  · intro st pick c h
    unfold make_random_move at h
    split_ifs at h with hlen
    simp only [Except.ok.injEq] at h
    subst h
    exact mem_random_list (List.get_mem _ _ _)
  · decide

/-- Witness for the universally quantified part of claim C6. -/
theorem claim_C6_witness :
    ((0 : Int), (0 : Int)) ∉ aiOne.moves_made ∧ ((0 : Int), (0 : Int)) ∉ aiOne.mines :=
  claim_C6_code_bug.1 aiOne 0 ((0 : Int), (0 : Int)) (by decide)

/-- Claim C7 confirmed: the sentence appended by `add_knowledge(cell,
count)` (before the inference engine runs) carries exactly the given count,
and its cell set is exactly the in-bounds 8-neighborhood of `cell`,
excluding `cell` itself and every neighbor already in `moves_made`,
`mines` or `safes` (the sets as they were before the call). -/
theorem claim_C7_confirmed (st : AIState) (cell : Cell) (count : Int) :
    (add_knowledge_pre st cell count).knowledge =
      st.knowledge.map (fun s => s.mark_safe cell) ++ [added_sentence st cell count] ∧
    (added_sentence st cell count).count = count ∧
    (∀ p : Cell, p ∈ (added_sentence st cell count).cells ↔
      (cell.1 - 1 ≤ p.1 ∧ p.1 ≤ cell.1 + 1 ∧ cell.2 - 1 ≤ p.2 ∧ p.2 ≤ cell.2 + 1) ∧
      p ≠ cell ∧
      (0 ≤ p.1 ∧ p.1 < st.height ∧ 0 ≤ p.2 ∧ p.2 < st.width) ∧
      p ∉ st.moves_made ∧ p ∉ st.mines ∧ p ∉ st.safes) := by
  refine ⟨rfl, rfl, fun p => ?_⟩
  show p ∈ (nearby_cells (post_mark_state st cell) cell).toFinset ↔ _
  rw [List.mem_toFinset, mem_nearby_cells]
  have hm : (post_mark_state st cell).moves_made = insert cell st.moves_made := rfl
  have hsf : (post_mark_state st cell).safes = insert cell st.safes := rfl
  have hmn : (post_mark_state st cell).mines = st.mines := rfl
  have hh : (post_mark_state st cell).height = st.height := rfl
  have hw : (post_mark_state st cell).width = st.width := rfl
  rw [hm, hsf, hmn, hh, hw]
  simp only [Finset.mem_insert, not_or]
  constructor
  · rintro ⟨hb, ⟨⟨hc1, hmv⟩, hmi, hc2, hsv⟩, hbd⟩
    exact ⟨hb, hc1, hbd, hmv, hmi, hsv⟩
  · rintro ⟨hb, hc1, hbd, hmv, hmi, hsv⟩
    exact ⟨hb, ⟨⟨hc1, hmv⟩, hmi, hc1, hsv⟩, hbd⟩

/-- Claim C8 confirmed: the agent-level `mark_mine` is idempotent — calling
it twice with the same cell leaves the whole agent state (mines, safes and
every sentence) exactly as one call does. -/
theorem claim_C8_confirmed (st : AIState) (c : Cell) :
    (st.mark_mine c).mark_mine c = st.mark_mine c := by
  have hmap : ∀ l : List Sentence,
      (l.map (fun s => s.mark_mine c)).map (fun s => s.mark_mine c)
        = l.map (fun s => s.mark_mine c) := by
    intro l
    rw [List.map_map]
    exact List.map_congr_left (fun s _ => sentence_mark_mine_idem s c)
  simp [AIState.mark_mine, Finset.insert_idem, hmap]

/-- Claim C9 confirmed: `make_safe_move` only reads the agent state; the
state after the call equals the state before. -/
theorem claim_C9_confirmed (st : AIState) (pick : Nat) :
    (make_safe_move st pick).2 = st := rfl

/-- Claim C10 confirmed: no agent operation ever removes a cell from
`moves_made`, `mines` or `safes` — `mark_mine`/`mark_safe` only insert,
the two move-choosing functions leave the state untouched, and whenever
`add_knowledge` terminates the resulting sets contain the original ones. -/
theorem claim_C10_confirmed :
    (∀ (st : AIState) (c : Cell), SetsLE st (st.mark_mine c)) ∧
    (∀ (st : AIState) (c : Cell), SetsLE st (st.mark_safe c)) ∧
    (∀ (st : AIState) (pick : Nat), (make_safe_move st pick).2 = st) ∧
    (∀ (st : AIState) (pick : Nat), (make_random_move st pick).2 = st) ∧
    (∀ (fuel : Nat) (st : AIState) (cell : Cell) (count : Int) (st' : AIState),
        add_knowledge fuel st cell count = some st' → SetsLE st st') := by
  refine ⟨mark_mine_setsLE, mark_safe_setsLE, fun _ _ => rfl, fun _ _ => rfl, ?_⟩
  intro fuel st cell count st' h
  simp only [add_knowledge] at h
  split_ifs at h with hdone
  simp only [Option.some.injEq] at h
  subst h
  exact setsLE_trans (add_knowledge_pre_setsLE st cell count)
    (run_setsLE fuel (add_knowledge_pre st cell count, Cfg.markCells true))

/-- Witness for the `add_knowledge` part of claim C10 at a concrete input. -/
theorem claim_C10_witness : SetsLE aiThree stOne :=
  claim_C10_confirmed.2.2.2.2 5 aiThree ((1 : Int), (1 : Int)) 1 stOne (by decide)

end Minesweeper2P
